import Mathlib

/-!
# vtrenderlib `boids/main.c`: vector math, kinematic update and projection

Shallow embedding of `src/boids/main.c`.

Modelling conventions
* The C types `float` and `double` are read as one exact scalar type `α` (a field); all
  theorems about trigonometry instantiate `α := ℝ`.  Rounding of binary32/binary64
  arithmetic is not modelled.
* The `<math.h>` functions and the constant `M_PI` are not code of the program; the
  definitions receive them in a record `Libm α`.  The predicate `Libm.exact` states that a
  record over `ℝ` holds the mathematical functions.
* `assert` failure and an out-of-range float-to-integer conversion are the result `none`.
* The global `g_boid` is passed explicitly; `update` returns the new value.
-/

namespace Boids

/-- The functions of `<math.h>` used by `main.c`, and the constant `M_PI`. -/
structure Libm (α : Type) where
  sqrtf : α → α
  cosf : α → α
  sinf : α → α
  tanf : α → α
  M_PI : α

/-- The record `m` holds the exact real functions. -/
def Libm.exact (m : Libm ℝ) : Prop :=
  m.sqrtf = Real.sqrt ∧ m.cosf = Real.cos ∧ m.sinf = Real.sin ∧ m.tanf = Real.tan ∧
    m.M_PI = Real.pi

/-- The C `struct vec2f` (main.c:17). -/
structure vec2f (α : Type) where
  x : α
  y : α
  deriving DecidableEq, Repr

/-- The C `struct vt_boid` (main.c:23). -/
structure vt_boid (α : Type) where
  p : vec2f α
  v : vec2f α
  n : vec2f α
  psi : α
  t : vec2f α
  deriving DecidableEq, Repr

/-- The C `struct vtr_vertex` of the rendering library: a pair of `uint16_t` coordinates. -/
structure vtr_vertex where
  x : Nat
  y : Nat
  deriving DecidableEq, Repr

/-- Macro `VT_BOID_WIDTH` (main.c:11). -/
def VT_BOID_WIDTH : Int := 20

/-- Macro `VT_BOID_LENGTH` (main.c:12). -/
def VT_BOID_LENGTH : Int := 30

/-- Macro `VT_BOID_SPEED` (main.c:15): boid speed in dots per second. -/
def VT_BOID_SPEED : Int := 50

section Ops

variable {α : Type}

/-- Function `vec2f_mul_add` (main.c:40): `a + b * scale`, `scale` an `int`. -/
def vec2f_mul_add [Field α] (a b : vec2f α) (scale : Int) : vec2f α :=
  ⟨a.x + b.x * (scale : α), a.y + b.y * (scale : α)⟩

/-- Function `vec2f_sub` (main.c:45). -/
def vec2f_sub [Field α] (a b : vec2f α) : vec2f α :=
  ⟨a.x - b.x, a.y - b.y⟩

/-- Function `vec2f_normal` (main.c:59). -/
def vec2f_normal [Field α] (v : vec2f α) : vec2f α :=
  ⟨-v.y, v.x⟩

/-- Function `vec2f_rot_r` (main.c:64). -/
def vec2f_rot_r [Field α] (m : Libm α) (v : vec2f α) (rad : α) : vec2f α :=
  let cs := m.cosf rad
  let sn := m.sinf rad
  ⟨v.x * cs - v.y * sn, v.x * sn + v.y * cs⟩

/-- Function `vec2f_rot_d` (main.c:75): `d` is `unsigned`. -/
def vec2f_rot_d [Field α] (m : Libm α) (v : vec2f α) (d : Nat) : vec2f α :=
  vec2f_rot_r m v (m.M_PI * (d : α) / 180)

/-- Truncation toward zero of a scalar: the integral part that a C conversion from a
floating type to an integer type keeps. -/
def trunc [LinearOrderedField α] [FloorRing α] (r : α) : Int :=
  if 0 ≤ r then Int.floor r else Int.ceil r

/-- The conversion `(uint16_t)r` of a floating value: the fractional part is discarded, and
the conversion is defined only when the integral part is representable (`none` otherwise). -/
def to_uint16 [LinearOrderedField α] [FloorRing α] (r : α) : Option Nat :=
  let t := trunc r
  if 0 ≤ t ∧ t < 65536 then some t.toNat else none

/-- Function `vec2f_project` (main.c:81). -/
def vec2f_project [LinearOrderedField α] [FloorRing α] (v : vec2f α) : Option vtr_vertex :=
  match to_uint16 (v.x + 0.5), to_uint16 (v.y + 0.5) with
  | some vx, some vy => some ⟨vx, vy⟩
  | _, _ => none

/-- The local `phi` of `update` (main.c:97). -/
def phi [Field α] (m : Libm α) : α :=
  80.0 * m.M_PI / 180

/-- The local `omega` of `update` (main.c:98). -/
def omega [Field α] (m : Libm α) : α :=
  (9.81 * m.tanf (phi m)) / (VT_BOID_SPEED : α)

/-- Function `update` (main.c:90) on an explicit boid; `dt` is in milliseconds. -/
def update [Field α] (m : Libm α) (b : vt_boid α) (dt : α) : vt_boid α :=
  let dts := dt / 1000
  let psi := b.psi + omega m * dts
  let px := b.p.x + (VT_BOID_SPEED : α) * m.cosf psi * dts
  let py := b.p.y + (VT_BOID_SPEED : α) * m.sinf psi * dts
  let v := vec2f_rot_r m b.v (omega m * dts)
  let n := vec2f_normal v
  { p := ⟨px, py⟩, v := v, n := n, psi := psi, t := b.t }

/-- The boid as `main` sets it up (main.c:165-168); `psi` keeps the zero of static storage.
`xdots` is the value returned by `vtr_xdots`. -/
def main_init [Field α] (xdots : Nat) : vt_boid α :=
  let v : vec2f α := ⟨1.0, 0.0⟩
  { p := ⟨50, 50⟩, v := v, n := vec2f_normal v, psi := 0, t := ⟨((xdots / 3 : Nat) : α), 100⟩ }

/-- Successive `update` calls, one per element of `dts`, in order. -/
def update_seq [Field α] (m : Libm α) (b : vt_boid α) (dts : List α) : vt_boid α :=
  dts.foldl (update m) b

/-- The boid after `n` iterations of the frame loop of `main` (main.c:170-176), which calls
`update(1000.0 / 60)` once per iteration. -/
def frames [Field α] (m : Libm α) (b : vt_boid α) : Nat → vt_boid α
  | 0 => b
  | n + 1 => update m (frames m b n) (1000.0 / 60)

/-- The three points `draw` hands to `vec2f_project`, in order (main.c:121-125). The C
expression `-VT_BOID_WIDTH / 2` is `(-20) / 2` in `int` arithmetic. -/
def draw_points [Field α] (b : vt_boid α) : List (vec2f α) :=
  [vec2f_mul_add b.p b.n (Int.tdiv (-VT_BOID_WIDTH) 2),
   vec2f_mul_add b.p b.n (Int.tdiv VT_BOID_WIDTH 2),
   vec2f_mul_add b.p b.v VT_BOID_LENGTH]

end Ops

/-- Squared Euclidean length of a vector. -/
def vec2f.normSq {α : Type} [Field α] (v : vec2f α) : α :=
  v.x * v.x + v.y * v.y

/-- Dot product of two vectors. -/
def vec2f.dot {α : Type} [Field α] (a b : vec2f α) : α :=
  a.x * b.x + a.y * b.y

/-- The vertices that `draw` stores in `buf` (main.c:121-125): the projections of
`draw_points`, in order. -/
def draw_buf {α : Type} [LinearOrderedField α] [FloorRing α] (b : vt_boid α) :
    List (Option vtr_vertex) :=
  (draw_points b).map vec2f_project

/-- The calls `handle_signal` makes to the rendering library and to `<signal.h>`:
`vtr_set_resize_pending(g_vt)`, `vtr_close(g_vt)`, `signal(signo, SIG_DFL)` and
`raise(signo)`. -/
inductive sig_call where
  | vtr_set_resize_pending : sig_call
  | vtr_close : sig_call
  | signal_dfl (signo : Int) : sig_call
  | raise (signo : Int) : sig_call
  deriving DecidableEq, Repr

/-- Function `restore_tty_attrs` (main.c:131): the calls it makes, in order. -/
def restore_tty_attrs : List sig_call :=
  [sig_call.vtr_close]

/-- Function `handle_signal` (main.c:136): the calls it makes for signal `signo`, in order.
`SIGWINCH` is the signal number that `<signal.h>` gives the macro. -/
def handle_signal (SIGWINCH : Int) (signo : Int) : List sig_call :=
  if signo = SIGWINCH then
    [sig_call.vtr_set_resize_pending]
  else
    restore_tty_attrs ++ [sig_call.signal_dfl signo, sig_call.raise signo]

theorem rot_r_exact (m : Libm ℝ) (hm : m.exact) (v : vec2f ℝ) (rad : ℝ) :
    vec2f_rot_r m v rad =
      ⟨v.x * Real.cos rad - v.y * Real.sin rad, v.x * Real.sin rad + v.y * Real.cos rad⟩ := by
  obtain ⟨-, hc, hs, -, -⟩ := hm
  simp [vec2f_rot_r, hc, hs]

theorem rot_r_normSq (m : Libm ℝ) (hm : m.exact) (v : vec2f ℝ) (rad : ℝ) :
    (vec2f_rot_r m v rad).normSq = v.normSq := by
  rw [rot_r_exact m hm]
  simp only [vec2f.normSq]
  nlinarith [Real.sin_sq_add_cos_sq rad]

theorem omega_exact (m : Libm ℝ) (hm : m.exact) :
    omega m = 9.81 * Real.tan (80 * Real.pi / 180) / 50 := by
  obtain ⟨-, -, -, ht, hp⟩ := hm
  simp only [omega, phi, ht, hp, VT_BOID_SPEED]
  norm_num

theorem normal_normSq (v : vec2f ℝ) : (vec2f_normal v).normSq = v.normSq := by
  simp only [vec2f.normSq, vec2f_normal]
  ring

theorem update_seq_snoc (m : Libm ℝ) (b : vt_boid ℝ) (dts : List ℝ) (dt : ℝ) :
    update_seq m b (dts ++ [dt]) = update m (update_seq m b dts) dt := by
  simp [update_seq, List.foldl_append]

theorem update_n (m : Libm ℝ) (b : vt_boid ℝ) (dt : ℝ) :
    (update m b dt).n = vec2f_normal (update m b dt).v := rfl

theorem update_v (m : Libm ℝ) (b : vt_boid ℝ) (dt : ℝ) :
    (update m b dt).v = vec2f_rot_r m b.v (omega m * (dt / 1000)) := rfl

theorem update_psi (m : Libm ℝ) (b : vt_boid ℝ) (dt : ℝ) :
    (update m b dt).psi = b.psi + omega m * (dt / 1000) := rfl

theorem update_p (m : Libm ℝ) (b : vt_boid ℝ) (dt : ℝ) :
    (update m b dt).p =
      ⟨b.p.x + 50 * m.cosf (update m b dt).psi * (dt / 1000),
       b.p.y + 50 * m.sinf (update m b dt).psi * (dt / 1000)⟩ := by
  simp [update, VT_BOID_SPEED]

theorem main_init_v (xdots : Nat) : (main_init xdots : vt_boid ℝ).v = ⟨1, 0⟩ := by
  simp only [main_init, vec2f.mk.injEq]
  norm_num

theorem main_init_p (xdots : Nat) : (main_init xdots : vt_boid ℝ).p = ⟨50, 50⟩ := rfl

theorem main_init_psi (xdots : Nat) : (main_init xdots : vt_boid ℝ).psi = 0 := rfl

theorem real_libm_exact : Libm.exact ⟨Real.sqrt, Real.cos, Real.sin, Real.tan, Real.pi⟩ :=
  ⟨rfl, rfl, rfl, rfl, rfl⟩

/-! ## The update step -/

/-- C3. One call of `update` adds `omega * dt / 1000` to the heading, with
`omega = 9.81 * tan(80 * pi / 180) / 50`; moves the position by `50 * dt / 1000` times the
cosine and sine of the new heading; and replaces the velocity by the previous velocity
rotated by `omega * dt / 1000`. -/
theorem update_single_step (m : Libm ℝ) (hm : m.exact) (b : vt_boid ℝ) (dt : ℝ) :
    omega m = 9.81 * Real.tan (80 * Real.pi / 180) / 50 ∧
    (update m b dt).psi = b.psi + omega m * (dt / 1000) ∧
    (update m b dt).p =
      ⟨b.p.x + 50 * (dt / 1000) * Real.cos (b.psi + omega m * (dt / 1000)),
       b.p.y + 50 * (dt / 1000) * Real.sin (b.psi + omega m * (dt / 1000))⟩ ∧
    (update m b dt).v = vec2f_rot_r m b.v (omega m * (dt / 1000)) ∧
    (update m b dt).v =
      ⟨b.v.x * Real.cos (omega m * (dt / 1000)) - b.v.y * Real.sin (omega m * (dt / 1000)),
       b.v.x * Real.sin (omega m * (dt / 1000)) + b.v.y * Real.cos (omega m * (dt / 1000))⟩ := by
  refine ⟨omega_exact m hm, rfl, ?_, rfl, ?_⟩
  · rw [update_p, update_psi, hm.2.1, hm.2.2.1]
    simp only [vec2f.mk.injEq]
    constructor <;> ring
  · rw [update_v, rot_r_exact m hm]

theorem update_single_step_witness :
    Libm.exact ⟨Real.sqrt, Real.cos, Real.sin, Real.tan, Real.pi⟩ ∧
    (update ⟨Real.sqrt, Real.cos, Real.sin, Real.tan, Real.pi⟩ (main_init 90) (1000 / 60)).psi =
      9.81 * Real.tan (80 * Real.pi / 180) / 50 * (1 / 60) := by
  obtain ⟨h1, h2, -⟩ := update_single_step _ real_libm_exact (main_init 90) (1000 / 60)
  refine ⟨real_libm_exact, ?_⟩
  rw [h2, h1, main_init_psi]
  norm_num

/-- C8. `vec2f_normal v` is `(-v.y, v.x)`; its dot product with `v` is zero and its length
equals the length of `v`. -/
theorem vec2f_normal_perp (v : vec2f ℝ) :
    vec2f_normal v = ⟨-v.y, v.x⟩ ∧
    (vec2f_normal v).dot v = 0 ∧
    (vec2f_normal v).normSq = v.normSq ∧
    Real.sqrt (vec2f_normal v).normSq = Real.sqrt v.normSq := by
  refine ⟨rfl, ?_, normal_normSq v, by rw [normal_normSq]⟩
  simp only [vec2f.dot, vec2f_normal]
  ring

/-! ## Invariants of the agent state -/

theorem update_normSq (m : Libm ℝ) (hm : m.exact) (b : vt_boid ℝ) (dt : ℝ) :
    (update m b dt).v.normSq = b.v.normSq := by
  rw [update_v, rot_r_normSq m hm]

theorem update_seq_unit (m : Libm ℝ) (hm : m.exact) (dts : List ℝ) :
    ∀ b : vt_boid ℝ, b.v.normSq = 1 → b.n = vec2f_normal b.v →
      (update_seq m b dts).v.normSq = 1 ∧
        (update_seq m b dts).n = vec2f_normal (update_seq m b dts).v := by
  induction dts with
  | nil => intro b hv hn; exact ⟨hv, hn⟩
  | cons dt rest ih =>
    intro b hv _
    have h := ih (update m b dt) (by rw [update_normSq m hm, hv]) (update_n m b dt)
    simpa [update_seq] using h

theorem update_lockstep (m : Libm ℝ) (hm : m.exact) (b : vt_boid ℝ) (dt : ℝ)
    (h : b.v = ⟨Real.cos b.psi, Real.sin b.psi⟩) :
    (update m b dt).v = ⟨Real.cos (update m b dt).psi, Real.sin (update m b dt).psi⟩ := by
  rw [update_v, rot_r_exact m hm, update_psi, h, Real.cos_add, Real.sin_add]
  simp only [vec2f.mk.injEq]
  exact ⟨trivial, by ring⟩

theorem update_seq_lockstep (m : Libm ℝ) (hm : m.exact) (dts : List ℝ) :
    ∀ b : vt_boid ℝ, b.v = ⟨Real.cos b.psi, Real.sin b.psi⟩ →
      (update_seq m b dts).v =
        ⟨Real.cos (update_seq m b dts).psi, Real.sin (update_seq m b dts).psi⟩ := by
  induction dts with
  | nil => intro b h; exact h
  | cons dt rest ih =>
    intro b h
    have h2 := ih (update m b dt) (update_lockstep m hm b dt h)
    simpa [update_seq] using h2

theorem main_init_lockstep (xdots : Nat) :
    (main_init xdots : vt_boid ℝ).v =
      ⟨Real.cos (main_init xdots : vt_boid ℝ).psi, Real.sin (main_init xdots : vt_boid ℝ).psi⟩ := by
  rw [main_init_v, main_init_psi, Real.cos_zero, Real.sin_zero]

section Project

variable {α : Type} [LinearOrderedField α] [FloorRing α]

theorem trunc_of_nonneg (r : α) (h : 0 ≤ r) : trunc r = Int.floor r := by
  simp [trunc, h]

theorem trunc_of_neg (r : α) (h : r < 0) : trunc r = Int.ceil r := by
  simp [trunc, not_le.mpr h]

theorem trunc_small_neg (r : α) (h1 : -1 < r) (h2 : r < 0) : trunc r = 0 := by
  rw [trunc_of_neg r h2, Int.ceil_eq_iff]
  constructor
  · simpa using h1
  · simpa using h2.le

theorem to_uint16_of_nonneg (r : α) (h0 : 0 ≤ r) (h1 : r < 65536) :
    to_uint16 r = some (Int.floor r).toNat := by
  have hf0 : 0 ≤ Int.floor r := Int.floor_nonneg.mpr h0
  have hf1 : Int.floor r < 65536 := by
    rw [Int.floor_lt]
    exact_mod_cast h1
  simp [to_uint16, trunc_of_nonneg r h0, hf0, hf1]

theorem to_uint16_small_neg (r : α) (h1 : -1 < r) (h2 : r < 0) : to_uint16 r = some 0 := by
  simp [to_uint16, trunc_small_neg r h1 h2]

theorem to_uint16_eq_none_iff (r : α) : to_uint16 r = none ↔ r ≤ -1 ∨ 65536 ≤ r := by
  constructor
  · intro h
    by_contra hc
    push_neg at hc
    rcases lt_or_le r 0 with hneg | hpos
    · rw [to_uint16_small_neg r hc.1 hneg] at h
      cases h
    · rw [to_uint16_of_nonneg r hpos hc.2] at h
      cases h
  · rintro (h | h)
    · have hneg : r < 0 := lt_of_le_of_lt h (by norm_num)
      have hc : Int.ceil r ≤ -1 := by
        rw [Int.ceil_le]
        exact_mod_cast h
      have : ¬ (0 ≤ Int.ceil r) := by omega
      simp [to_uint16, trunc_of_neg r hneg, this]
    · have hpos : 0 ≤ r := le_trans (by norm_num) h
      have hf : (65536 : Int) ≤ Int.floor r := by
        rw [Int.le_floor]
        exact_mod_cast h
      have : ¬ (Int.floor r < 65536) := by omega
      simp [to_uint16, trunc_of_nonneg r hpos, this]

end Project

section ProjectClaims

variable {α : Type} [LinearOrderedField α] [FloorRing α]

theorem project_eq_none_iff (v : vec2f α) :
    vec2f_project v = none ↔
      (v.x + 0.5 ≤ -1 ∨ 65536 ≤ v.x + 0.5) ∨ (v.y + 0.5 ≤ -1 ∨ 65536 ≤ v.y + 0.5) := by
  rw [← to_uint16_eq_none_iff, ← to_uint16_eq_none_iff]
  unfold vec2f_project
  cases hx : to_uint16 (v.x + 0.5) <;> cases hy : to_uint16 (v.y + 0.5) <;> simp

end ProjectClaims

/-! ## One full period -/

theorem sum_cos_sin_period (N : ℕ) (hN : 2 ≤ N) (θ : ℝ) (hθ : (N : ℝ) * θ = 2 * Real.pi) :
    (∑ j in Finset.range N, Real.cos (((j : ℝ) + 1) * θ)) = 0 ∧
    (∑ j in Finset.range N, Real.sin (((j : ℝ) + 1) * θ)) = 0 := by
  have hN0 : N ≠ 0 := by omega
  have hNr : (N : ℝ) ≠ 0 := by exact_mod_cast hN0
  have hprim := Complex.isPrimitiveRoot_exp N hN0
  have hθ2 : θ = 2 * Real.pi / N := by
    field_simp
    linarith
  have hz : Complex.exp (2 * Real.pi * Complex.I / N) = Complex.exp (θ * Complex.I) := by
    congr 1
    rw [hθ2]
    push_cast
    ring
  rw [hz] at hprim
  have hsum : ∑ j in Finset.range N, Complex.exp (θ * Complex.I) ^ (j + 1) = 0 := by
    have := hprim.geom_sum_eq_zero (by omega : 1 < N)
    simp only [pow_succ, ← Finset.sum_mul, this, zero_mul]
  have hterm : ∀ j : ℕ, Complex.exp (θ * Complex.I) ^ (j + 1) =
      Complex.exp ((((j : ℝ) + 1) * θ : ℝ) * Complex.I) := by
    intro j
    rw [← Complex.exp_nat_mul]
    congr 1
    push_cast
    ring
  simp only [hterm] at hsum
  constructor
  · have := congrArg Complex.re hsum
    rw [Complex.re_sum] at this
    simp only [Complex.exp_ofReal_mul_I_re, Complex.zero_re] at this
    exact this
  · have := congrArg Complex.im hsum
    rw [Complex.im_sum] at this
    simp only [Complex.exp_ofReal_mul_I_im, Complex.zero_im] at this
    exact this

theorem update_replicate (m : Libm ℝ) (hm : m.exact) (b : vt_boid ℝ) (dt : ℝ) (k : ℕ) :
    (update_seq m b (List.replicate k dt)).psi = b.psi + (k : ℝ) * (omega m * (dt / 1000)) ∧
    (update_seq m b (List.replicate k dt)).p =
      ⟨b.p.x + 50 * (dt / 1000) *
          ∑ j in Finset.range k, Real.cos (b.psi + ((j : ℝ) + 1) * (omega m * (dt / 1000))),
       b.p.y + 50 * (dt / 1000) *
          ∑ j in Finset.range k, Real.sin (b.psi + ((j : ℝ) + 1) * (omega m * (dt / 1000)))⟩ := by
  induction k with
  | zero => simp [update_seq]
  | succ k ih =>
    obtain ⟨ih1, ih2⟩ := ih
    rw [List.replicate_succ', update_seq_snoc]
    have hpsi : (update m (update_seq m b (List.replicate k dt)) dt).psi =
        b.psi + ((k : ℝ) + 1) * (omega m * (dt / 1000)) := by
      rw [update_psi, ih1]
      ring
    refine ⟨by rw [hpsi]; push_cast; ring, ?_⟩
    rw [update_p, hpsi, ih2, hm.2.1, hm.2.2.1, Finset.sum_range_succ, Finset.sum_range_succ]
    simp only [vec2f.mk.injEq]
    constructor <;> ring

theorem tan_bank_pos : 0 < Real.tan (80 * Real.pi / 180) := by
  apply Real.tan_pos_of_pos_of_lt_pi_div_two
  · positivity
  · linarith [Real.pi_pos]

/-- C2. From the state set up by `main` (position `(50, 50)`, velocity `(1, 0)`, heading `0`),
for every `N >= 2` and every `dt` with `N * omega * (dt / 1000) = 2 * pi`, where
`omega = 9.81 * tan(80 * pi / 180) / 50`, after `N` calls of `update` with that `dt` the
position is `(50, 50)` again and the heading is the initial heading plus `2 * pi`. -/
theorem closed_circle (m : Libm ℝ) (hm : m.exact) (xdots N : ℕ) (hN : 2 ≤ N) (dt : ℝ)
    (h : (N : ℝ) * (9.81 * Real.tan (80 * Real.pi / 180) / 50) * (dt / 1000) = 2 * Real.pi) :
    (main_init xdots : vt_boid ℝ).p = ⟨50, 50⟩ ∧
    (main_init xdots : vt_boid ℝ).v = ⟨1, 0⟩ ∧
    (main_init xdots : vt_boid ℝ).psi = 0 ∧
    (update_seq m (main_init xdots) (List.replicate N dt)).p = ⟨50, 50⟩ ∧
    (update_seq m (main_init xdots) (List.replicate N dt)).psi =
      (main_init xdots : vt_boid ℝ).psi + 2 * Real.pi := by
  obtain ⟨hpsi, hp⟩ := update_replicate m hm (main_init xdots) dt N
  have hθ : (N : ℝ) * (omega m * (dt / 1000)) = 2 * Real.pi := by
    rw [omega_exact m hm, ← mul_assoc]
    exact h
  obtain ⟨hc, hs⟩ := sum_cos_sin_period N hN _ hθ
  refine ⟨rfl, main_init_v xdots, rfl, ?_, by rw [hpsi, hθ]⟩
  rw [hp, main_init_psi, main_init_p]
  simp only [zero_add, hc, hs, mul_zero, add_zero]

theorem closed_circle_witness :
    Libm.exact ⟨Real.sqrt, Real.cos, Real.sin, Real.tan, Real.pi⟩ ∧ 2 ≤ 2 ∧
    ((2 : ℕ) : ℝ) * (9.81 * Real.tan (80 * Real.pi / 180) / 50) *
      (1000 * Real.pi / (9.81 * Real.tan (80 * Real.pi / 180) / 50) / 1000) = 2 * Real.pi ∧
    (update_seq ⟨Real.sqrt, Real.cos, Real.sin, Real.tan, Real.pi⟩ (main_init 90)
      (List.replicate 2
        (1000 * Real.pi / (9.81 * Real.tan (80 * Real.pi / 180) / 50)))).p = ⟨50, 50⟩ := by
  have ht : Real.tan (80 * Real.pi / 180) ≠ 0 := ne_of_gt tan_bank_pos
  have h : ((2 : ℕ) : ℝ) * (9.81 * Real.tan (80 * Real.pi / 180) / 50) *
      (1000 * Real.pi / (9.81 * Real.tan (80 * Real.pi / 180) / 50) / 1000) = 2 * Real.pi := by
    push_cast
    field_simp
    ring
  exact ⟨real_libm_exact, le_refl 2, h,
    (closed_circle _ real_libm_exact 90 2 (le_refl 2) _ h).2.2.2.1⟩

/-! ## Target, rotations and signals -/

/-- C13. The target is inert in `update`: the call leaves the field `t` unchanged, and two
boids that differ only in `t` have the same position, velocity, normal and heading after
`update` with the same `dt`. -/
theorem update_target_inert {α : Type} [Field α] (m : Libm α) (b : vt_boid α) (dt : α) :
    (update m b dt).t = b.t ∧
    ∀ t2 : vec2f α,
      (update m { b with t := t2 } dt).p = (update m b dt).p ∧
      (update m { b with t := t2 } dt).v = (update m b dt).v ∧
      (update m { b with t := t2 } dt).n = (update m b dt).n ∧
      (update m { b with t := t2 } dt).psi = (update m b dt).psi ∧
      (update m { b with t := t2 } dt).t = t2 :=
  ⟨rfl, fun _ => ⟨rfl, rfl, rfl, rfl, rfl⟩⟩

/-- C16. For every vector `v` and every `unsigned` degree count `d`,
`vec2f_rot_d v d = vec2f_rot_r v (d * pi / 180)`. -/
theorem vec2f_rot_d_eq_rot_r (m : Libm ℝ) (hm : m.exact) (v : vec2f ℝ) (d : Nat) :
    vec2f_rot_d m v d = vec2f_rot_r m v ((d : ℝ) * Real.pi / 180) := by
  simp only [vec2f_rot_d, hm.2.2.2.2]
  congr 1
  ring

theorem vec2f_rot_d_eq_rot_r_witness :
    Libm.exact ⟨Real.sqrt, Real.cos, Real.sin, Real.tan, Real.pi⟩ ∧
    vec2f_rot_d ⟨Real.sqrt, Real.cos, Real.sin, Real.tan, Real.pi⟩ ⟨3, 4⟩ 45 =
      vec2f_rot_r ⟨Real.sqrt, Real.cos, Real.sin, Real.tan, Real.pi⟩ ⟨3, 4⟩
        (((45 : Nat) : ℝ) * Real.pi / 180) :=
  ⟨real_libm_exact, vec2f_rot_d_eq_rot_r _ real_libm_exact ⟨3, 4⟩ 45⟩

/-- C17. For the signal `SIGWINCH`, `handle_signal` makes the single call
`vtr_set_resize_pending`; for every other signal it makes, in this order, the calls
`vtr_close`, `signal(signo, SIG_DFL)` and `raise(signo)`. -/
theorem handle_signal_calls (SIGWINCH signo : Int) :
    handle_signal SIGWINCH SIGWINCH = [sig_call.vtr_set_resize_pending] ∧
    (signo ≠ SIGWINCH →
      handle_signal SIGWINCH signo =
        [sig_call.vtr_close, sig_call.signal_dfl signo, sig_call.raise signo]) ∧
    (handle_signal SIGWINCH signo = [sig_call.vtr_set_resize_pending] ↔ signo = SIGWINCH) := by
  refine ⟨by simp [handle_signal], fun h => by simp [handle_signal, h, restore_tty_attrs], ?_⟩
  constructor
  · intro h
    by_contra hne
    simp [handle_signal, hne, restore_tty_attrs] at h
  · intro h
    simp [handle_signal, h]

theorem handle_signal_calls_witness :
    (2 : Int) ≠ 28 ∧
    handle_signal 28 2 = [sig_call.vtr_close, sig_call.signal_dfl 2, sig_call.raise 2] :=
  ⟨by decide, (handle_signal_calls 28 2).2.1 (by decide)⟩

/-! ## The silhouette -/

theorem draw_points_eq {α : Type} [Field α] (b : vt_boid α) :
    draw_points b =
      [⟨b.p.x + b.n.x * (-10), b.p.y + b.n.y * (-10)⟩,
       ⟨b.p.x + b.n.x * 10, b.p.y + b.n.y * 10⟩,
       ⟨b.p.x + b.v.x * 30, b.p.y + b.v.y * 30⟩] := by
  have h1 : Int.tdiv (-VT_BOID_WIDTH) 2 = -10 := by decide
  have h2 : Int.tdiv VT_BOID_WIDTH 2 = 10 := by decide
  simp only [draw_points, vec2f_mul_add, h1, h2, VT_BOID_LENGTH]
  norm_num

/-- C14. The three points `draw` hands to `vec2f_project` are, in order, `p - 10 n`,
`p + 10 n` and `p + 30 v` (`VT_BOID_WIDTH / 2 = 10`, `VT_BOID_LENGTH = 30`); the midpoint of
the first two is `p`, the second minus the first is `20 n`, and the third minus `p` is
`30 v`. -/
theorem draw_silhouette (b : vt_boid ℝ) :
    Int.tdiv (-VT_BOID_WIDTH) 2 = -10 ∧ Int.tdiv VT_BOID_WIDTH 2 = 10 ∧ VT_BOID_LENGTH = 30 ∧
    draw_points b =
      [⟨b.p.x - 10 * b.n.x, b.p.y - 10 * b.n.y⟩,
       ⟨b.p.x + 10 * b.n.x, b.p.y + 10 * b.n.y⟩,
       ⟨b.p.x + 30 * b.v.x, b.p.y + 30 * b.v.y⟩] ∧
    draw_buf b =
      [vec2f_project ⟨b.p.x - 10 * b.n.x, b.p.y - 10 * b.n.y⟩,
       vec2f_project ⟨b.p.x + 10 * b.n.x, b.p.y + 10 * b.n.y⟩,
       vec2f_project ⟨b.p.x + 30 * b.v.x, b.p.y + 30 * b.v.y⟩] ∧
    (∃ a c d : vec2f ℝ, draw_points b = [a, c, d] ∧
      (⟨(a.x + c.x) / 2, (a.y + c.y) / 2⟩ : vec2f ℝ) = b.p ∧
      vec2f_sub c a = ⟨20 * b.n.x, 20 * b.n.y⟩ ∧
      vec2f_sub d b.p = ⟨30 * b.v.x, 30 * b.v.y⟩) := by
  have hpts : draw_points b =
      [⟨b.p.x - 10 * b.n.x, b.p.y - 10 * b.n.y⟩,
       ⟨b.p.x + 10 * b.n.x, b.p.y + 10 * b.n.y⟩,
       ⟨b.p.x + 30 * b.v.x, b.p.y + 30 * b.v.y⟩] := by
    rw [draw_points_eq]
    simp only [List.cons.injEq, vec2f.mk.injEq, and_true]
    refine ⟨⟨?_, ?_⟩, ⟨?_, ?_⟩, ?_, ?_⟩ <;> ring
  refine ⟨by decide, by decide, rfl, hpts, ?_, _, _, _, hpts, ?_, ?_, ?_⟩
  · rw [draw_buf, hpts]
    rfl
  · cases hp : b.p
    simp only [vec2f.mk.injEq]
    constructor <;> ring
  · simp only [vec2f_sub, vec2f.mk.injEq]
    constructor <;> ring
  · simp only [vec2f_sub, vec2f.mk.injEq]
    constructor <;> ring

theorem sin_pi_div_18_cubic : 8 * Real.sin (Real.pi / 18) ^ 3 - 6 * Real.sin (Real.pi / 18) + 1 = 0 := by
  have h := Real.sin_three_mul (Real.pi / 18)
  have h6 : 3 * (Real.pi / 18) = Real.pi / 6 := by ring
  rw [h6, Real.sin_pi_div_six] at h
  linarith

theorem sin_pi_div_18_bounds :
    (0.1736 : ℝ) < Real.sin (Real.pi / 18) ∧ Real.sin (Real.pi / 18) < 0.17366 := by
  have hc := sin_pi_div_18_cubic
  have hpos : 0 < Real.sin (Real.pi / 18) :=
    Real.sin_pos_of_pos_of_lt_pi (by positivity) (by linarith [Real.pi_pos])
  have hlt : Real.sin (Real.pi / 18) < 1 / 2 := by
    rw [← Real.sin_pi_div_six]
    apply Real.sin_lt_sin_of_lt_of_le_pi_div_two <;> linarith [Real.pi_pos]
  set s := Real.sin (Real.pi / 18) with hs
  constructor
  · by_contra hle
    push_neg at hle
    nlinarith [mul_nonneg (sub_nonneg.mpr hle) hpos.le, mul_pos hpos hpos,
      mul_nonneg (sub_nonneg.mpr hle) (mul_pos hpos hpos).le]
  · by_contra hle
    push_neg at hle
    nlinarith [mul_nonneg (sub_nonneg.mpr hle) hpos.le, mul_pos hpos hpos,
      mul_nonneg (sub_nonneg.mpr hle) (sub_nonneg.mpr hlt.le),
      mul_nonneg (mul_nonneg (sub_nonneg.mpr hle) (sub_nonneg.mpr hlt.le)) hpos.le]

theorem tan_bank_bounds :
    (5.6703 : ℝ) < Real.tan (80 * Real.pi / 180) ∧ Real.tan (80 * Real.pi / 180) < 5.6753 := by
  obtain ⟨hs1, hs2⟩ := sin_pi_div_18_bounds
  have hpos : 0 < Real.sin (Real.pi / 18) := by linarith
  have hcos : 0 < Real.cos (Real.pi / 18) :=
    Real.cos_pos_of_mem_Ioo ⟨by linarith [Real.pi_pos], by linarith [Real.pi_pos]⟩
  have hsq := Real.sin_sq_add_cos_sq (Real.pi / 18)
  have harg : 80 * Real.pi / 180 = Real.pi / 2 - Real.pi / 18 := by ring
  have ht : Real.tan (80 * Real.pi / 180) * Real.sin (Real.pi / 18) = Real.cos (Real.pi / 18) := by
    rw [harg, Real.tan_pi_div_two_sub, Real.tan_eq_sin_div_cos]
    field_simp
  have htpos := tan_bank_pos
  set t := Real.tan (80 * Real.pi / 180) with htdef
  set s := Real.sin (Real.pi / 18) with hsdef
  set c := Real.cos (Real.pi / 18) with hcdef
  have hts : t ^ 2 * s ^ 2 = 1 - s ^ 2 := by
    have : (t * s) ^ 2 = c ^ 2 := by rw [ht]
    nlinarith [this]
  have hs2lo : (0.1736 : ℝ) ^ 2 < s ^ 2 := by nlinarith
  have hs2hi : s ^ 2 < (0.17366 : ℝ) ^ 2 := by nlinarith
  constructor
  · by_contra hle
    push_neg at hle
    have h1 : t ^ 2 ≤ (5.6703 : ℝ) ^ 2 := by nlinarith
    have h2 : t ^ 2 * s ^ 2 ≤ (5.6703 : ℝ) ^ 2 * s ^ 2 :=
      mul_le_mul_of_nonneg_right h1 (sq_nonneg s)
    norm_num at hs2hi h2
    nlinarith
  · by_contra hle
    push_neg at hle
    have h1 : (5.6753 : ℝ) ^ 2 ≤ t ^ 2 := by nlinarith
    have h2 : (5.6753 : ℝ) ^ 2 * s ^ 2 ≤ t ^ 2 * s ^ 2 :=
      mul_le_mul_of_nonneg_right h1 (sq_nonneg s)
    norm_num at hs2lo h2
    nlinarith

theorem omega_bounds (m : Libm ℝ) (hm : m.exact) : 1.1125 < omega m ∧ omega m < 1.1135 := by
  obtain ⟨h1, h2⟩ := tan_bank_bounds
  rw [omega_exact m hm]
  constructor
  · rw [lt_div_iff₀ (by norm_num)]
    nlinarith
  · rw [div_lt_iff₀ (by norm_num)]
    nlinarith

/-- C12. From the state set up by `main` (position `(50, 50)`, velocity `(1, 0)`, heading
`0`), one `update` with `dt = 1000 / 60` ms increases the heading by `omega / 60`, where
`omega = 9.81 * tan(80 * pi / 180) / 50` is within `5e-4` of `1.113`, so the increase is
within `1e-5` of `0.01855`; the position moves by
`(50 * cos(omega / 60) / 60, 50 * sin(omega / 60) / 60)`, which is within `5e-4` of
`(0.833, 0.0155)` in each coordinate. -/
theorem scenario_one_step (m : Libm ℝ) (hm : m.exact) (xdots : Nat) :
    (main_init xdots : vt_boid ℝ).p = ⟨50, 50⟩ ∧
    (main_init xdots : vt_boid ℝ).v = ⟨1, 0⟩ ∧
    (main_init xdots : vt_boid ℝ).psi = 0 ∧
    omega m = 9.81 * Real.tan (80 * Real.pi / 180) / 50 ∧
    (update m (main_init xdots) (1000 / 60)).psi - (main_init xdots : vt_boid ℝ).psi =
      omega m / 60 ∧
    |omega m - 1.113| < 5e-4 ∧
    |omega m / 60 - 0.01855| < 1e-5 ∧
    (update m (main_init xdots) (1000 / 60)).p.x - (main_init xdots : vt_boid ℝ).p.x =
      50 * Real.cos (omega m / 60) / 60 ∧
    (update m (main_init xdots) (1000 / 60)).p.y - (main_init xdots : vt_boid ℝ).p.y =
      50 * Real.sin (omega m / 60) / 60 ∧
    |50 * Real.cos (omega m / 60) / 60 - 0.833| < 5e-4 ∧
    |50 * Real.sin (omega m / 60) / 60 - 0.0155| < 5e-4 := by
  obtain ⟨hω1, hω2⟩ := omega_bounds m hm
  have hθ : omega m * (1000 / 60 / 1000) = omega m / 60 := by ring
  have hpsi : (update m (main_init xdots) (1000 / 60)).psi = omega m / 60 := by
    rw [update_psi, main_init_psi, hθ, zero_add]
  have hcos1 := Real.one_sub_sq_div_two_le_cos (x := omega m / 60)
  have hcos2 := Real.cos_le_one (omega m / 60)
  have hsin1 := Real.sin_lt (x := omega m / 60) (by linarith)
  have hsin2 := Real.sin_gt_sub_cube (x := omega m / 60) (by linarith) (by linarith)
  have hsq : (omega m / 60) ^ 2 < 0.0004 := by nlinarith
  have hcube : (omega m / 60) ^ 3 < 0.00001 := by nlinarith
  refine ⟨rfl, main_init_v xdots, rfl, omega_exact m hm, ?_, ?_, ?_, ?_, ?_, ?_, ?_⟩
  · rw [hpsi, main_init_psi, sub_zero]
  · rw [abs_lt]
    constructor <;> norm_num <;> linarith
  · rw [abs_lt]
    constructor <;> norm_num <;> linarith
  · rw [update_p, hpsi, hm.2.1, main_init_p]
    ring
  · rw [update_p, hpsi, hm.2.2.1, main_init_p]
    ring
  · rw [abs_lt]
    constructor <;> norm_num <;> linarith
  · rw [abs_lt]
    constructor <;> norm_num <;> linarith

theorem scenario_one_step_witness :
    Libm.exact ⟨Real.sqrt, Real.cos, Real.sin, Real.tan, Real.pi⟩ ∧
    |omega (⟨Real.sqrt, Real.cos, Real.sin, Real.tan, Real.pi⟩ : Libm ℝ) - 1.113| < 5e-4 :=
  ⟨real_libm_exact, (scenario_one_step _ real_libm_exact 90).2.2.2.2.2.1⟩

/-! ## Shape of the trajectory -/

theorem frames_eq_update_seq (m : Libm ℝ) (b : vt_boid ℝ) (n : Nat) :
    frames m b n = update_seq m b (List.replicate n (1000 / 60)) := by
  induction n with
  | zero => rfl
  | succ k ih =>
    rw [List.replicate_succ', update_seq_snoc, ← ih]
    simp only [frames]
    norm_num

theorem orbit_closed_form (m : Libm ℝ) (hm : m.exact) (b : vt_boid ℝ) (dt : ℝ) (k : ℕ) :
    2 * Real.sin (omega m * (dt / 1000) / 2) *
        ((update_seq m b (List.replicate k dt)).p.x - b.p.x) =
      50 * (dt / 1000) *
        (Real.sin (b.psi + ((k : ℝ) + 1 / 2) * (omega m * (dt / 1000))) -
          Real.sin (b.psi + omega m * (dt / 1000) / 2)) ∧
    2 * Real.sin (omega m * (dt / 1000) / 2) *
        ((update_seq m b (List.replicate k dt)).p.y - b.p.y) =
      50 * (dt / 1000) *
        (Real.cos (b.psi + omega m * (dt / 1000) / 2) -
          Real.cos (b.psi + ((k : ℝ) + 1 / 2) * (omega m * (dt / 1000)))) := by
  induction k with
  | zero =>
    have h : b.psi + (((0 : ℕ) : ℝ) + 1 / 2) * (omega m * (dt / 1000)) =
        b.psi + omega m * (dt / 1000) / 2 := by push_cast; ring
    rw [h]
    simp [update_seq]
  | succ k ih =>
    obtain ⟨ihx, ihy⟩ := ih
    have hpsi := (update_replicate m hm b dt (k + 1)).1
    rw [List.replicate_succ', update_seq_snoc] at hpsi ⊢
    rw [update_p, hpsi, hm.2.1, hm.2.2.1]
    obtain ⟨θ, hθ⟩ : ∃ θ : ℝ, θ = omega m * (dt / 1000) := ⟨_, rfl⟩
    rw [← hθ] at hpsi ihx ihy ⊢
    obtain ⟨A, hA⟩ : ∃ A : ℝ, A = b.psi + ((k : ℝ) + 1) * θ := ⟨_, rfl⟩
    have e1 : b.psi + (((k + 1 : ℕ) : ℝ) + 1 / 2) * θ = A + θ / 2 := by
      rw [hA]; push_cast; ring
    have e2 : b.psi + ((k : ℝ) + 1 / 2) * θ = A - θ / 2 := by
      rw [hA]; ring
    have e3 : b.psi + ((k + 1 : ℕ) : ℝ) * θ = A := by
      rw [hA]; push_cast; ring
    rw [e2] at ihx ihy
    rw [e1, e3]
    rw [Real.sin_sub A (θ / 2)] at ihx
    rw [Real.cos_sub A (θ / 2)] at ihy
    rw [Real.sin_add A (θ / 2), Real.cos_add A (θ / 2)]
    dsimp only
    constructor
    · linear_combination ihx
    · linear_combination ihy

theorem sin_le_near_three_half_pi (x : ℝ) (h1 : 4.7 ≤ x) (h2 : x ≤ 4.73) :
    Real.sin x ≤ -0.99 := by
  have hcos : Real.cos (x - Real.pi - Real.pi / 2) = -Real.sin x := by
    rw [Real.cos_sub_pi_div_two, Real.sin_sub_pi]
  have hb := Real.one_sub_sq_div_two_le_cos (x := x - Real.pi - Real.pi / 2)
  have hp1 := Real.pi_gt_d2
  have hp2 := Real.pi_lt_d2
  have hy1 : -0.1 ≤ x - Real.pi - Real.pi / 2 := by linarith
  have hy2 : x - Real.pi - Real.pi / 2 ≤ 0.1 := by linarith
  have hsq : (x - Real.pi - Real.pi / 2) ^ 2 ≤ 0.01 := by nlinarith
  rw [hcos] at hb
  linarith

theorem frames_state (m : Libm ℝ) (hm : m.exact) (xdots : Nat) (n : ℕ) :
    (frames m (main_init xdots) n).psi = (n : ℝ) * (omega m / 60) ∧
    (frames m (main_init xdots) n).v =
      ⟨Real.cos ((n : ℝ) * (omega m / 60)), Real.sin ((n : ℝ) * (omega m / 60))⟩ ∧
    (frames m (main_init xdots) n).n =
      ⟨-Real.sin ((n : ℝ) * (omega m / 60)), Real.cos ((n : ℝ) * (omega m / 60))⟩ := by
  have hpsi : (frames m (main_init xdots) n).psi = (n : ℝ) * (omega m / 60) := by
    rw [frames_eq_update_seq, (update_replicate m hm _ _ n).1, main_init_psi]
    ring
  have hv := update_seq_lockstep m hm (List.replicate n (1000 / 60)) (main_init xdots)
    (main_init_lockstep xdots)
  have hn := (update_seq_unit m hm (List.replicate n (1000 / 60)) (main_init xdots)
    (by rw [main_init_v]; norm_num [vec2f.normSq]) rfl).2
  rw [← frames_eq_update_seq, hpsi] at hv
  rw [← frames_eq_update_seq, hv] at hn
  exact ⟨hpsi, hv, by rw [hn]; rfl⟩

theorem frames_p_x (m : Libm ℝ) (hm : m.exact) (xdots : Nat) (n : ℕ) :
    2 * Real.sin (omega m / 120) * ((frames m (main_init xdots) n).p.x - 50) =
      50 / 60 * (Real.sin (((n : ℝ) + 1 / 2) * (omega m / 60)) - Real.sin (omega m / 120)) := by
  have h := (orbit_closed_form m hm (main_init xdots) (1000 / 60) n).1
  rw [← frames_eq_update_seq, main_init_p, main_init_psi] at h
  have e1 : omega m * (1000 / 60 / 1000) = omega m / 60 := by ring
  have e2 : omega m / 60 / 2 = omega m / 120 := by ring
  rw [e1, e2, zero_add, zero_add] at h
  linear_combination h

theorem first_point_254 (m : Libm ℝ) (hm : m.exact) (xdots : Nat) :
    (frames m (main_init xdots) 254).p.x + (frames m (main_init xdots) 254).n.x * (-10) <
      -1.5 := by
  obtain ⟨hω1, hω2⟩ := omega_bounds m hm
  obtain ⟨-, -, hn⟩ := frames_state m hm xdots 254
  have hpx := frames_p_x m hm xdots 254
  rw [hn]
  dsimp only
  have hs1 : Real.sin (((254 : ℕ) : ℝ) * (omega m / 60)) ≤ -0.99 :=
    sin_le_near_three_half_pi _ (by push_cast; linarith) (by push_cast; linarith)
  have hs2 : Real.sin ((((254 : ℕ) : ℝ) + 1 / 2) * (omega m / 60)) ≤ -0.99 :=
    sin_le_near_three_half_pi _ (by push_cast; linarith) (by push_cast; linarith)
  have hS : 0 < Real.sin (omega m / 120) :=
    Real.sin_pos_of_pos_of_lt_pi (by linarith) (by linarith [Real.pi_gt_three])
  have hlt : Real.sin (omega m / 120) < omega m / 120 := Real.sin_lt (by linarith)
  have hS2 : Real.sin (omega m / 120) < 0.0093 := by linarith
  set S := Real.sin (omega m / 120) with hSdef
  set K := Real.sin ((((254 : ℕ) : ℝ) + 1 / 2) * (omega m / 60)) with hKdef
  set px := (frames m (main_init xdots) 254).p.x with hpxdef
  -- 2 S (px - 50) = 50/60 (K - S), with K ≤ -0.99 and 0 < S < 0.0093
  have h3 : 2 * S * (px - 50) ≤ 50 / 60 * (-0.99 - S) := by
    rw [hpx]
    nlinarith
  have h4 : px - 50 < -44 := by
    by_contra hc
    push_neg at hc
    nlinarith
  linarith

theorem first_point_out_of_range (m : Libm ℝ) (hm : m.exact) (xdots : Nat) :
    ∃ a c d : vec2f ℝ, draw_points (frames m (main_init xdots) 254) = [a, c, d] ∧
      a.x < -1.5 ∧ vec2f_project a = none ∧
      draw_buf (frames m (main_init xdots) 254) = [none, vec2f_project c, vec2f_project d] := by
  have hx := first_point_254 m hm xdots
  have hnone : vec2f_project (⟨(frames m (main_init xdots) 254).p.x +
      (frames m (main_init xdots) 254).n.x * (-10),
      (frames m (main_init xdots) 254).p.y +
      (frames m (main_init xdots) 254).n.y * (-10)⟩ : vec2f ℝ) = none := by
    rw [project_eq_none_iff]
    left
    left
    dsimp only
    norm_num at hx ⊢
    linarith
  refine ⟨_, _, _, draw_points_eq _, hx, hnone, ?_⟩
  rw [draw_buf, draw_points_eq]
  simp only [List.map_cons, List.map_nil, hnone]

/-- C18 fails on the code at frame 254 of the frame loop: the first silhouette point
`p - 10 n` has x-coordinate below `-1.5`, so `x + 0.5 < -1` is outside the range of
`uint16_t` and `vec2f_project` has no defined result for it; hence not every silhouette point
of every frame has its coordinates in `[-0.5, 65535.5)`. -/
theorem silhouette_out_of_range :
    (∃ a c d : vec2f ℝ,
      draw_points
        (frames ⟨Real.sqrt, Real.cos, Real.sin, Real.tan, Real.pi⟩ (main_init 90) 254) =
        [a, c, d] ∧
      a.x < -1.5 ∧ vec2f_project a = none ∧
      draw_buf (frames ⟨Real.sqrt, Real.cos, Real.sin, Real.tan, Real.pi⟩ (main_init 90) 254) =
        [none, vec2f_project c, vec2f_project d]) ∧
    ¬ (∀ n : ℕ, ∀ q ∈ draw_points
        (frames ⟨Real.sqrt, Real.cos, Real.sin, Real.tan, Real.pi⟩ (main_init 90) n),
      -0.5 ≤ q.x ∧ q.x < 65535.5 ∧ -0.5 ≤ q.y ∧ q.y < 65535.5) := by
  have h := first_point_out_of_range _ real_libm_exact 90
  refine ⟨h, fun hall => ?_⟩
  obtain ⟨a, c, d, hpts, hx, -, -⟩ := h
  have ha := (hall 254 a (by rw [hpts]; simp)).1
  norm_num at hx ha
  linarith

end Boids
